import Mathlib

/-!
Verification development for the opensearch_rag ingestion-and-retrieval
pipeline.  Python strings are embedded as `List Char` (Python `len` counts
characters), machine floats used for progress percentages and scores are
embedded as `ℚ` (all arithmetic involved is exact), and the effectful
pipeline steps are embedded as pure functions returning explicit traces
(yielded progress values, vector-store writes, metadata saves, raised
errors).
-/

namespace OpenSearchRag

/-! ## Python string primitives (character-list model) -/

/-- Python's `\s` character class over ASCII, as used by `re.split` and
`str.strip` in the sources. -/
def pyIsSpace (c : Char) : Bool :=
  c = ' ' || c = '\t' || c = '\n' || c = '\r' || c = '\x0b' || c = '\x0c'

/-- Python `str.strip()`: drop leading and trailing whitespace. -/
def pyStrip (l : List Char) : List Char :=
  ((l.dropWhile pyIsSpace).reverse.dropWhile pyIsSpace).reverse

/-- Python `text[-n:]` for `n > 0`: the trailing `n` characters. -/
def takeRightCL (n : ℕ) (l : List Char) : List Char :=
  l.drop (l.length - n)

/-- Auxiliary scanner for `splitOnCL`: `acc` is the reversed current
piece.  The fuel argument (always at least the length of the remaining
input, which shrinks by at least one character per step) makes the
recursion structural so that the kernel can evaluate it. -/
def splitOnAux (sep : List Char) : ℕ → List Char → List Char → List (List Char)
  | 0, l, acc => [acc.reverse ++ l]
  | _ + 1, [], acc => [acc.reverse]
  | fuel + 1, c :: cs, acc =>
    if sep.isPrefixOf (c :: cs) ∧ sep ≠ [] then
      acc.reverse :: splitOnAux sep fuel ((c :: cs).drop sep.length) []
    else
      splitOnAux sep fuel cs (c :: acc)

/-- Python `text.split(sep)` for a non-empty separator `sep`
(non-overlapping occurrences, scanned left to right). -/
def splitOnCL (sep : List Char) (l : List Char) : List (List Char) :=
  splitOnAux sep l.length l []

/-! ## Chunk splitter (`src/app/loader/chunk_splitter.py`) -/

namespace ChunkSplitter

/-- Scanner for `re.sub(r'\n{2,}', '\n\n', text)`: the Boolean state is
true while skipping the remainder of an already-collapsed newline run. -/
def collapseNLAux : Bool → List Char → List Char
  | _, [] => []
  | true, '\n' :: cs => collapseNLAux true cs
  | true, c :: cs => c :: collapseNLAux false cs
  | false, '\n' :: '\n' :: cs => '\n' :: '\n' :: collapseNLAux true cs
  | false, c :: cs => c :: collapseNLAux false cs

/-- `re.sub(r'\n{2,}', '\n\n', text)`: collapse runs of two or more
newlines to exactly two. -/
def collapseNewlines (l : List Char) : List Char := collapseNLAux false l

/-- Scanner for `re.sub(r'[ \t]+', ' ', text)`: the Boolean state is true
while skipping the remainder of a space/tab run that was already replaced
by a single space. -/
def collapseSpAux : Bool → List Char → List Char
  | _, [] => []
  | true, c :: cs =>
    if c = ' ' ∨ c = '\t' then collapseSpAux true cs
    else c :: collapseSpAux false cs
  | false, c :: cs =>
    if c = ' ' ∨ c = '\t' then ' ' :: collapseSpAux true cs
    else c :: collapseSpAux false cs

/-- `re.sub(r'[ \t]+', ' ', text)`: collapse runs of spaces and tabs to a
single space. -/
def collapseSpaces (l : List Char) : List Char := collapseSpAux false l

/-- `re.sub(r'([.!?])([A-Z])', r'\1 \2', text)`: insert a missing space
between a sentence terminator and a following ASCII capital letter.  The
regex scan resumes after each two-character match; since a capital letter
can never start a match, skipping both characters is equivalent. -/
def fixSentenceSpacing : List Char → List Char
  | [] => []
  | [c] => [c]
  | c :: d :: cs =>
    if (c = '.' ∨ c = '!' ∨ c = '?') ∧ ('A' ≤ d ∧ d ≤ 'Z') then
      c :: ' ' :: d :: fixSentenceSpacing cs
    else
      c :: fixSentenceSpacing (d :: cs)

/-- `clean_text` from `ChunkSplitter` (line-for-line with the source). -/
def clean_text (text : List Char) : List Char :=
  let t1 := collapseNewlines text
  let t2 := collapseSpaces t1
  let t3 := fixSentenceSpacing t2
  let t4 := List.intercalate ('\n' :: '\n' :: [])
    ((splitOnCL ('\n' :: '\n' :: []) t3).map pyStrip)
  pyStrip t4

/-- The separator priority list passed to the recursive splitter in
`get_splitter` (paragraphs, lines, sentence punctuation with a space,
semicolon, colon, comma, space, character fallback). -/
def separators : List (List Char) :=
  [['\n', '\n'], ['\n'], ['.', ' '], ['?', ' '], ['!', ' '],
   [';'], [':'], [','], [' '], []]

/-- Attach the separator to every piece except the last, so that the
separator is retained in the output pieces. -/
def attachSep (sep : List Char) : List (List Char) → List (List Char)
  | [] => []
  | [p] => [p]
  | p :: q :: rest => (p ++ sep) :: attachSep sep (q :: rest)

/-- Split on a separator, keeping the separator in the preceding piece;
the empty separator splits into single characters. -/
def splitPieces (sep : List Char) (text : List Char) : List (List Char) :=
  if sep = [] then text.map (fun c => [c])
  else attachSep sep (splitOnCL sep text)

/-- Greedily merge adjacent small pieces while the combined length stays
within the chunk size. -/
def mergeAux (chunkSize : ℕ) (cur : List Char) :
    List (List Char) → List (List Char)
  | [] => [cur]
  | p :: rest =>
    if cur.length + p.length ≤ chunkSize then
      mergeAux chunkSize (cur ++ p) rest
    else
      cur :: mergeAux chunkSize p rest

/-- Merge a piece list into chunks of (roughly) at most `chunkSize`. -/
def mergeSplits (chunkSize : ℕ) : List (List Char) → List (List Char)
  | [] => []
  | p :: rest => mergeAux chunkSize p rest

/-- Modelled from the spec: the recursive separator-based splitting step of
langchain's `RecursiveCharacterTextSplitter` (third-party code, not part of
the repository sources).  Per spec §4.1: split on the coarsest separator,
keep the separator in the output piece, recursively split pieces that still
exceed the chunk size with the finer separators, and merge small adjacent
pieces back up towards the chunk size.  Empty pieces are discarded, so an
empty input produces no chunks. -/
def recSplit (chunkSize : ℕ) : List (List Char) → List Char → List (List Char)
  | [], text => if text = [] then [] else [text]
  | sep :: seps, text =>
    let pieces := (splitPieces sep text).filter (fun p => p ≠ [])
    let fitted := pieces.flatMap (fun p =>
      if p.length ≤ chunkSize then [p] else recSplit chunkSize seps p)
    mergeSplits chunkSize fitted

/-- Apply the chunk overlap: every chunk after the first is prefixed with
the trailing `overlap` characters of the previous chunk's source span. -/
def overlapAux (overlap : ℕ) (prev : List Char) :
    List (List Char) → List (List Char)
  | [] => []
  | c :: cs => (takeRightCL overlap prev ++ c) :: overlapAux overlap c cs

/-- Modelled from the spec: overlap application of the recursive splitter
(spec §4.1, "each chunk after the first includes the trailing
`chunk_overlap` characters of the previous chunk's source span"). -/
def applyOverlap (overlap : ℕ) : List (List Char) → List (List Char)
  | [] => []
  | c :: cs => c :: overlapAux overlap c cs

/-- Modelled from the spec: `RecursiveCharacterTextSplitter.split_text`
(the langchain splitter configured by `get_splitter`; the library itself is
not in the repository sources). -/
def split_text (chunkSize chunkOverlap : ℕ) (text : List Char) :
    List (List Char) :=
  applyOverlap chunkOverlap (recSplit chunkSize separators text)

end ChunkSplitter

/-! ## Chunk metadata and documents -/

/-- The base metadata dict built per page in
`DocumentProcessor.load_documents`. -/
structure PageMeta where
  source : String
  page : ℕ
  total_pages : ℕ
deriving DecidableEq

/-- The metadata dict carried by a chunk.  Keys that are added only by the
enumeration loop of `split_into_chunks` or by `add_neighbouring_content`
are modelled as `Option` fields (`none` = key absent). -/
structure ChunkMeta where
  source : String
  page : ℕ
  total_pages : ℕ
  chunk_size : ℕ
  chunk_overlap : ℕ
  total_length : ℕ
  processing_timestamp : String
  chunk_index : Option ℕ := none
  total_chunks : Option ℕ := none
  chunk_length : Option ℕ := none
  is_first_chunk : Option Bool := none
  is_last_chunk : Option Bool := none
  has_previous : Option Bool := none
  has_next : Option Bool := none
  context_length : Option ℕ := none
deriving DecidableEq

instance : Inhabited ChunkMeta :=
  ⟨{ source := "", page := 0, total_pages := 0, chunk_size := 0,
     chunk_overlap := 0, total_length := 0, processing_timestamp := "" }⟩

/-- A langchain `Document`: page content plus a metadata dict. -/
structure Document where
  page_content : List Char
  metadata : ChunkMeta
deriving DecidableEq

instance : Inhabited Document := ⟨⟨[], default⟩⟩

namespace ChunkSplitter

/-- `ChunkSplitter.split_into_chunks`: clean the text, split it, and attach
chunk-level metadata by enumeration (the `datetime.now()` timestamp is
passed in as `now`). -/
def split_into_chunks (chunk_size chunk_overlap : ℕ) (now : String)
    (text : List Char) (metadata : PageMeta) : List Document :=
  let text := clean_text text
  let enhanced_metadata : ChunkMeta :=
    { source := metadata.source, page := metadata.page,
      total_pages := metadata.total_pages, chunk_size := chunk_size,
      chunk_overlap := chunk_overlap, total_length := text.length,
      processing_timestamp := now }
  let chunks := (split_text chunk_size chunk_overlap text).map
    (fun t => Document.mk t enhanced_metadata)
  chunks.enum.map (fun p =>
    { p.2 with metadata :=
      { p.2.metadata with
        chunk_index := some p.1,
        total_chunks := some chunks.length,
        chunk_length := some p.2.page_content.length,
        is_first_chunk := some (decide (p.1 = 0)),
        is_last_chunk := some (decide (p.1 = chunks.length - 1)) } })

/-- Is the character one of the sentence terminators `.`, `!`, `?`. -/
def isPunct (c : Char) : Bool := c = '.' || c = '!' || c = '?'

/-- Scanner state for `re.split(r'[.!?]+\s+', text)`: scanning a token
(`scan`, with the reversed token so far), inside a run of sentence
terminators (`punct`, with the reversed run and the reversed token before
it), or inside the whitespace run that completes a match (`space`). -/
inductive SentState where
  | scan (acc : List Char)
  | punct (run acc : List Char)
  | space
deriving DecidableEq

/-- `re.split(r'[.!?]+\s+', text)` as a character scanner.  A match is a
maximal run of sentence terminators followed by at least one whitespace
character (regex backtracking never shortens the runs, because a sentence
terminator is not whitespace); matched characters are consumed, everything
else is accumulated into tokens. -/
def sentsAux : SentState → List Char → List (List Char)
  | SentState.scan acc, [] => [acc.reverse]
  | SentState.scan acc, c :: cs =>
    if isPunct c then sentsAux (SentState.punct [c] acc) cs
    else sentsAux (SentState.scan (c :: acc)) cs
  | SentState.punct run acc, [] => [(run ++ acc).reverse]
  | SentState.punct run acc, c :: cs =>
    if isPunct c then sentsAux (SentState.punct (c :: run) acc) cs
    else if pyIsSpace c then acc.reverse :: sentsAux SentState.space cs
    else sentsAux (SentState.scan (c :: (run ++ acc))) cs
  | SentState.space, [] => [[]]
  | SentState.space, c :: cs =>
    if pyIsSpace c then sentsAux SentState.space cs
    else sentsAux (SentState.scan [c]) cs

/-- `re.split(r'[.!?]+\s+', text)`. -/
def sentSplit (text : List Char) : List (List Char) :=
  sentsAux (SentState.scan []) text

/-- `ChunkSplitter._extract_relevant_context`: up to `max_length`
characters of neighbour context, preferring sentence boundaries. -/
def extract_relevant_context (text : List Char) (is_previous : Bool)
    (max_length : ℕ) : List Char :=
  let text := pyStrip text
  if text = [] then []
  else
    let sentences := sentSplit text
    if is_previous then
      if sentences.length > 1 then
        let context :=
          if sentences.length > 2 then sentences.drop (sentences.length - 2)
          else sentences
        pyStrip ((List.intercalate [' '] context).take max_length)
      else pyStrip (takeRightCL max_length text)
    else
      if sentences.length > 1 then
        pyStrip ((List.intercalate [' '] (sentences.take 2)).take max_length)
      else pyStrip (text.take max_length)

/-- The loop body of `add_neighbouring_content` at index `i`. -/
def enhanceAt (chunks : List Document) (i : ℕ) : Document :=
  let chunk := chunks.getD i default
  let prev_chunk := if i > 0 then some (chunks.getD (i - 1) default) else none
  let next_chunk :=
    if i < chunks.length - 1 then some (chunks.getD (i + 1) default) else none
  let prevSection : List (List Char) :=
    match prev_chunk with
    | some p =>
      let prev_text := extract_relevant_context p.page_content true 200
      if prev_text ≠ [] then
        [String.data "Previous Context: " ++ prev_text]
      else []
    | none => []
  let current_text := pyStrip chunk.page_content
  let currentSection : List (List Char) :=
    if current_text ≠ [] then
      [String.data "Current Content: " ++ current_text]
    else []
  let nextSection : List (List Char) :=
    match next_chunk with
    | some n =>
      let next_text := extract_relevant_context n.page_content false 200
      if next_text ≠ [] then
        [String.data "Next Context: " ++ next_text]
      else []
    | none => []
  let content_sections := prevSection ++ currentSection ++ nextSection
  let content := List.intercalate ['\n'] content_sections
  { page_content := content,
    metadata :=
      { chunk.metadata with
        has_previous := some prev_chunk.isSome,
        has_next := some next_chunk.isSome,
        context_length := some content.length } }

/-- `ChunkSplitter.add_neighbouring_content`: one enhanced chunk per input
chunk, with neighbour excerpts stitched into the content. -/
def add_neighbouring_content (chunks : List Document) : List Document :=
  (List.range chunks.length).map (enhanceAt chunks)

end ChunkSplitter

/-! ## Metadata store (`src/app/metadata/redis_service.py`) -/

/-- The `DocumentMetadata` pydantic model. -/
structure DocumentMetadata where
  title : String
  file_size : ℕ
  page_count : ℕ
  chunk_count : ℕ
  source_path : String
  indexed_date : String
  file_hash : String
  additional_metadata : List (String × String) := []
deriving DecidableEq

namespace RedisMetadataService

/-- Behaviour of the Redis backend for one call sequence: whether `ping`,
`set` and `sadd` succeed.  Failures of these awaited calls raise in the
Python source. -/
structure RedisBackend where
  ping_ok : Bool
  set_ok : Bool
  sadd_ok : Bool
deriving DecidableEq

/-- Connection state of the service: whether `self._redis` is set. -/
structure ServiceState where
  connected : Bool
deriving DecidableEq

/-- `RedisMetadataService.connect`: `from_url` assigns `self._redis`
before `ping` is awaited, so the state records a connection object even
when the ping raises; the raised error propagates
(`logger.error`; `raise`). -/
def connect (b : RedisBackend) (st : ServiceState) :
    Except String Unit × ServiceState :=
  let st := { st with connected := true }
  if b.ping_ok then (Except.ok (), st)
  else (Except.error "Failed to connect to Redis", st)

/-- `RedisMetadataService.save_document_metadata`.  The whole body is
wrapped in `try/except Exception`: every failure (including a connection
failure) is caught, logged, and turned into the normal return value
`False`; on success the function returns `True` after `set` and `sadd`.
The first component is what the caller observes: an `Except.error` would
mean an exception escaping to the caller. -/
def save_document_metadata (b : RedisBackend) (st : ServiceState)
    (doc_id : String) (metadata : DocumentMetadata) :
    Except String Bool × ServiceState :=
  let _ := doc_id
  let _ := metadata
  let step1 : Except String Unit × ServiceState :=
    if st.connected then (Except.ok (), st) else connect b st
  match step1 with
  | (Except.error _, st1) => (Except.ok false, st1)
  | (Except.ok _, st1) =>
    if b.set_ok = false then (Except.ok false, st1)
    else if b.sadd_ok = false then (Except.ok false, st1)
    else (Except.ok true, st1)

end RedisMetadataService

/-! ## Document processor (`src/app/loader/document_processor.py`) -/

namespace DocumentProcessor

/-- The chunk loop of `process_page_parallel`: empty chunks are skipped
before `processed` is incremented; each surviving chunk is dispatched to
the vector store (`writes` records the text of each `add_texts` call) and
then `progress = (processed / total_chunks) * 100` is yielded.  Returns
(yielded progress values, vector-store writes, final `processed`). -/
def pppLoop (total_chunks : ℕ) :
    List Document → ℕ → List ℚ × List (List Char) × ℕ
  | [], processed => ([], [], processed)
  | chunk :: rest, processed =>
    if chunk.page_content = [] then pppLoop total_chunks rest processed
    else
      let processed := processed + 1
      let r := pppLoop total_chunks rest processed
      (((processed : ℚ) / (total_chunks : ℚ)) * 100 :: r.1,
       chunk.page_content :: r.2.1, r.2.2)

/-- `DocumentProcessor.process_page_parallel` (the source's default
arguments are `chunk_size = 500`, `chunk_overlap = 100`): split the page,
stitch neighbour context, process the chunks, and yield a trailing `100.0`
when at least one chunk was processed.  Returns (yields, writes). -/
def process_page_parallel (now : String) (text : List Char)
    (metadata : PageMeta) (chunk_size chunk_overlap : ℕ) :
    List ℚ × List (List Char) :=
  let chunks :=
    ChunkSplitter.split_into_chunks chunk_size chunk_overlap now text metadata
  let enhanced_chunks := ChunkSplitter.add_neighbouring_content chunks
  let total_chunks := enhanced_chunks.length
  let r := pppLoop total_chunks enhanced_chunks 0
  (r.1 ++ (if r.2.2 > 0 then [(100 : ℚ)] else []), r.2.1)

/-- The per-page loop of `load_documents` over the pages starting at index
`i`: each inner progress value is rescaled to
`((i * 100) + progress) / total_pages` and counted into `chunk_count`; a
page whose final `page_progress` stays below 100 gets the completion yield
`((i + 1) * 100) / total_pages`.  Returns (yields, writes, chunk_count). -/
def pagesLoop (total_pages : ℕ) (now source : String) :
    List (List Char) → ℕ → List ℚ × List (List Char) × ℕ
  | [], _ => ([], [], 0)
  | text :: rest, i =>
    let metadata : PageMeta :=
      { source := source, page := i + 1, total_pages := total_pages }
    let pr := process_page_parallel now text metadata 500 100
    let overall := pr.1.map
      (fun progress => (((i : ℚ) * 100) + progress) / (total_pages : ℚ))
    let page_progress := pr.1.getLastD 0
    let extra :=
      if page_progress < 100 then
        [(((i : ℚ) + 1) * 100) / (total_pages : ℚ)]
      else []
    let r := pagesLoop total_pages now source rest (i + 1)
    (overall ++ extra ++ r.1, pr.2 ++ r.2.1, pr.1.length + r.2.2)

/-- The observable trace of one `load_documents` call: yielded progress
values, vector-store writes, `save_document_metadata` calls, and the
raised error (if any). -/
structure LoadResult where
  yields : List ℚ
  writes : List (List Char)
  saved : List (String × DocumentMetadata)
  error : Option String
deriving DecidableEq

/-- `DocumentProcessor.load_documents`.  The document is the list of its
pages' texts (`fitz` page extraction); `file_hash` stands for the SHA-256
streaming hash of the file bytes and `now` for `datetime.now()`.  A
zero-page document raises `ValueError('Document contains no pages')`,
re-wrapped by the enclosing `try/except` into
`ValueError('Error processing document: ...')` before any metadata is
saved; otherwise all pages are processed and one metadata record is saved
under the file hash. -/
def load_documents (file_path : String) (file_size : ℕ)
    (file_hash now : String) (doc : List (List Char)) : LoadResult :=
  let total_pages := doc.length
  if total_pages = 0 then
    { yields := [], writes := [], saved := [],
      error := some "Error processing document: Document contains no pages" }
  else
    let r := pagesLoop total_pages now file_path doc 0
    let doc_metadata : DocumentMetadata :=
      { title := (file_path.splitOn "/").getLastD file_path,
        file_size := file_size,
        page_count := total_pages,
        chunk_count := r.2.2,
        source_path := file_path,
        indexed_date := now,
        file_hash := file_hash,
        additional_metadata := [("processor_version", "1.0")] }
    { yields := r.1, writes := r.2.1,
      saved := [(file_hash, doc_metadata)], error := none }

end DocumentProcessor

/-- The number of non-empty chunks of a chunk list — exactly the chunks
that the loop of `process_page_parallel` does not skip, and thus the
final value of its `processed` counter. -/
def cntNE (l : List Document) : ℕ :=
  (l.filter (fun c => c.page_content ≠ [])).length

/-- Closed form of the progress sequence yielded by
`process_page_parallel` on a page with `t` chunks of which `m` are
non-empty: the fractions `k/t * 100` for `k = 1..m`, followed by the
trailing `100.0` when at least one chunk was processed. -/
def pageYieldsShape (m t : ℕ) : List ℚ :=
  (List.range' 1 m).map (fun k : ℕ => ((k : ℚ) / (t : ℚ)) * 100) ++
    (if 0 < m then [(100 : ℚ)] else [])

/-- The overall-progress contribution of page `i` (0-based) inside
`load_documents`, given the page's own progress sequence `pys`: each page
value rescaled into the page's window, followed by the page-completion
yield when the page's final progress stayed below 100. -/
def pageBlock (T i : ℕ) (pys : List ℚ) : List ℚ :=
  pys.map (fun progress => (((i : ℚ) * 100) + progress) / (T : ℚ)) ++
    (if pys.getLastD 0 < 100 then [(((i : ℚ) + 1) * 100) / (T : ℚ)] else [])

/-! ## Retrieval and answering (`src/app/rag.py`, `search`) -/

namespace Rag

/-- The metadata of a retrieval result as used by `search`: only the
optional `score` key is read (`x.metadata.get('score', 0)`). -/
structure RMeta where
  score : Option ℚ
deriving DecidableEq

/-- A retrieval result document returned by the vector store. -/
structure RDoc where
  page_content : List Char
  metadata : RMeta
deriving DecidableEq

/-- `float(x.metadata.get('score', 0))`: the sort key, a missing score
counting as 0. -/
def scoreOf (d : RDoc) : ℚ := d.metadata.score.getD 0

/-- The deduplication loop of `search`: `seen` is the set of already-seen
texts; a document survives only if its `page_content` was not seen
before. -/
def dedupLoop : List RDoc → List (List Char) → List RDoc
  | [], _ => []
  | doc :: docs, seen =>
    if doc.page_content ∈ seen then dedupLoop docs seen
    else doc :: dedupLoop docs (doc.page_content :: seen)

/-- `unique_results.sort(key=..., reverse=True)`: Python `list.sort` is a
stable sort; with `reverse=True` elements are ordered by descending key
and equal-key elements keep their original relative order.  Embedded as a
stable merge sort with the order "score of the left is at least the score
of the right". -/
def sortByScore (l : List RDoc) : List RDoc :=
  l.mergeSort (fun a b => decide (scoreOf b ≤ scoreOf a))

/-- A value of the `search_metadata` dict. -/
inductive MetaValue where
  | num : ℚ → MetaValue
  | strs : List String → MetaValue
deriving DecidableEq

/-- The result-shaping part of `rag.search`: merge the threshold
similarity results and the MMR diversity results, deduplicate by exact
text keeping first-seen order, stable-sort by descending score, and build
the `search_metadata` dict.  The LLM invocation is an external
collaborator and contributes only the opaque `result` string, so it is
not modelled; the function returns the deduplicated+sorted results and
the `search_metadata` association list exactly as the dict literal in the
source builds it. -/
def search (direct_results mmr_results : List RDoc) :
    List RDoc × List (String × MetaValue) :=
  let semantic_results := direct_results ++ mmr_results
  let unique_results := dedupLoop semantic_results []
  let unique_results := sortByScore unique_results
  let search_metadata : List (String × MetaValue) :=
    [("total_results_found", MetaValue.num semantic_results.length),
     ("unique_results_used", MetaValue.num unique_results.length),
     ("search_strategies_used", MetaValue.strs ["similarity", "mmr"]),
     ("top_result_score", MetaValue.num
       (match unique_results with
        | [] => 0
        | d :: _ => scoreOf d))]
  (unique_results, search_metadata)

/-- A retrieval result with the given text and no score. -/
def rdoc (s : String) : RDoc := ⟨s.data, ⟨none⟩⟩

/-- Scenario input: five threshold-similarity results with distinct
texts. -/
def exDirect : List RDoc :=
  [rdoc "t1", rdoc "t2", rdoc "t3", rdoc "t4", rdoc "t5"]

/-- Scenario input: three diversity (MMR) results, two of which repeat
texts of the similarity results. -/
def exMmr : List RDoc := [rdoc "t1", rdoc "t2", rdoc "t6"]

end Rag

/-! ## Concrete example inputs used by witnesses and counterexamples -/

/-- A backend whose connection ping fails. -/
def exBackendFail : RedisMetadataService.RedisBackend :=
  { ping_ok := false, set_ok := true, sadd_ok := true }

/-- A fresh, not-yet-connected service state. -/
def exState : RedisMetadataService.ServiceState := { connected := false }

/-- A concrete metadata record. -/
def exMetadata : DocumentMetadata :=
  { title := "doc.pdf", file_size := 100, page_count := 2, chunk_count := 5,
    source_path := "doc.pdf", indexed_date := "2024-01-01",
    file_hash := "abc", additional_metadata := [] }

/-- A chunk document with the given content and default metadata. -/
def exChunkDoc (s : String) : Document := ⟨s.data, default⟩

/-- Three concrete chunks for the stitching witness. -/
def exChunks : List Document :=
  [exChunkDoc "alpha", exChunkDoc "beta", exChunkDoc "gamma"]

/-- Page 1 of the chunk-count scenario: three 400-character paragraphs,
splitting into exactly 3 chunks at chunk size 500. -/
def pageA : List Char :=
  List.replicate 400 'a' ++ ('\n' :: '\n' :: List.replicate 400 'b') ++
    ('\n' :: '\n' :: List.replicate 400 'c')

/-- Page 2 of the chunk-count scenario: two 400-character paragraphs,
splitting into exactly 2 chunks at chunk size 500. -/
def pageB : List Char :=
  List.replicate 400 'd' ++ ('\n' :: '\n' :: List.replicate 400 'e')

/-- The two-page scenario document (page 1: 3 chunks, page 2: 2 chunks,
none empty after stitching). -/
def exDoc2 : List (List Char) := [pageA, pageB]

end OpenSearchRag

namespace OpenSearchRag

namespace Rag

lemma scoreGe_trans (a b c : RDoc)
    (hab : decide (scoreOf b ≤ scoreOf a) = true)
    (hbc : decide (scoreOf c ≤ scoreOf b) = true) :
    decide (scoreOf c ≤ scoreOf a) = true := by
  simp only [decide_eq_true_eq] at *
  exact le_trans hbc hab

lemma scoreGe_total (a b : RDoc) :
    (decide (scoreOf b ≤ scoreOf a) || decide (scoreOf a ≤ scoreOf b)) = true := by
  simp only [Bool.or_eq_true, decide_eq_true_eq]
  exact le_total (scoreOf b) (scoreOf a)

lemma sortByScore_sorted (l : List RDoc) :
    List.Sorted (fun a b => scoreOf b ≤ scoreOf a) (sortByScore l) := by
  have h := @List.sorted_mergeSort RDoc
    (fun a b : RDoc => decide (scoreOf b ≤ scoreOf a))
    scoreGe_trans scoreGe_total l
  exact h.imp (fun hab => by simpa using hab)

lemma sortByScore_perm (l : List RDoc) : (sortByScore l).Perm l :=
  List.mergeSort_perm l _

lemma sortByScore_stable_filter (l : List RDoc) (q : ℚ) :
    (sortByScore l).filter (fun d => decide (scoreOf d = q)) =
      l.filter (fun d => decide (scoreOf d = q)) := by
  have hsub : (l.filter (fun d => decide (scoreOf d = q))).Sublist l :=
    List.filter_sublist l
  have hpair : (l.filter (fun d => decide (scoreOf d = q))).Pairwise
      (fun a b => decide (scoreOf b ≤ scoreOf a) = true) := by
    refine List.pairwise_of_forall_mem_list (fun a ha b hb => ?_)
    have ha' := (List.mem_filter.mp ha).2
    have hb' := (List.mem_filter.mp hb).2
    simp only [decide_eq_true_eq] at *
    rw [ha', hb']
  have hst := List.sublist_mergeSort scoreGe_trans scoreGe_total hpair hsub
  have hperm : ((sortByScore l).filter (fun d => decide (scoreOf d = q))).Perm
      (l.filter (fun d => decide (scoreOf d = q))) :=
    (sortByScore_perm l).filter _
  have hself : (l.filter (fun d => decide (scoreOf d = q))).filter
      (fun d => decide (scoreOf d = q)) =
      l.filter (fun d => decide (scoreOf d = q)) :=
    List.filter_eq_self.mpr (fun a ha => (List.mem_filter.mp ha).2)
  have hss : (l.filter (fun d => decide (scoreOf d = q))).Sublist
      ((sortByScore l).filter (fun d => decide (scoreOf d = q))) := by
    have h2 := hst.filter (fun d => decide (scoreOf d = q))
    rwa [hself] at h2
  exact (hss.eq_of_length hperm.length_eq.symm).symm

/-- C4: every merged result list produced by `search` is stably sorted in
descending order of the `score` metadata field (a missing score counting
as 0): the returned list is the stable merge sort of the deduplicated
merge, it is pairwise descending by score, it is a permutation of the
deduplicated merge, and within every score class the original relative
order is preserved. -/
theorem search_results_sorted_stable (direct_results mmr_results : List RDoc) :
    (search direct_results mmr_results).1 =
      sortByScore (dedupLoop (direct_results ++ mmr_results) []) ∧
    List.Sorted (fun a b => scoreOf b ≤ scoreOf a)
      (search direct_results mmr_results).1 ∧
    ((search direct_results mmr_results).1).Perm
      (dedupLoop (direct_results ++ mmr_results) []) ∧
    ∀ q : ℚ,
      ((search direct_results mmr_results).1).filter
        (fun d => decide (scoreOf d = q)) =
      (dedupLoop (direct_results ++ mmr_results) []).filter
        (fun d => decide (scoreOf d = q)) :=
  ⟨rfl, sortByScore_sorted _, sortByScore_perm _,
    fun q => sortByScore_stable_filter _ q⟩

lemma dedupLoop_sublist (l : List RDoc) :
    ∀ seen, (dedupLoop l seen).Sublist l := by
  induction l with
  | nil => intro seen; simp [dedupLoop]
  | cons d ds ih =>
    intro seen
    by_cases h : d.page_content ∈ seen
    · simpa [dedupLoop, h] using (ih seen).cons d
    · simpa [dedupLoop, h] using (ih (d.page_content :: seen)).cons₂ d

lemma dedupLoop_not_seen (l : List RDoc) :
    ∀ seen, ∀ x ∈ dedupLoop l seen, x.page_content ∉ seen := by
  induction l with
  | nil => intro seen x hx; simp [dedupLoop] at hx
  | cons d ds ih =>
    intro seen x hx
    by_cases h : d.page_content ∈ seen
    · rw [dedupLoop, if_pos h] at hx
      exact ih seen x hx
    · rw [dedupLoop, if_neg h] at hx
      rcases List.mem_cons.mp hx with hx | hx
      · subst hx; exact h
      · have := ih (d.page_content :: seen) x hx
        exact fun hs => this (List.mem_cons_of_mem _ hs)

lemma dedupLoop_texts_nodup (l : List RDoc) :
    ∀ seen, ((dedupLoop l seen).map (fun d => d.page_content)).Nodup := by
  induction l with
  | nil => intro seen; simp [dedupLoop]
  | cons d ds ih =>
    intro seen
    by_cases h : d.page_content ∈ seen
    · rw [dedupLoop, if_pos h]; exact ih seen
    · rw [dedupLoop, if_neg h]
      refine List.nodup_cons.mpr ⟨?_, ih (d.page_content :: seen)⟩
      intro hmem
      rcases List.mem_map.mp hmem with ⟨x, hx, hxeq⟩
      have := dedupLoop_not_seen ds (d.page_content :: seen) x hx
      exact this (hxeq ▸ List.mem_cons_self _ _)

lemma dedupLoop_covers (l : List RDoc) :
    ∀ seen, ∀ d ∈ l, d.page_content ∈ seen ∨
      ∃ x ∈ dedupLoop l seen, x.page_content = d.page_content := by
  induction l with
  | nil => intro seen d hd; simp at hd
  | cons c cs ih =>
    intro seen d hd
    by_cases h : c.page_content ∈ seen
    · rw [dedupLoop, if_pos h]
      rcases List.mem_cons.mp hd with hd | hd
      · subst hd; exact Or.inl h
      · exact ih seen d hd
    · rw [dedupLoop, if_neg h]
      rcases List.mem_cons.mp hd with hd | hd
      · exact Or.inr ⟨c, List.mem_cons_self _ _, by rw [hd]⟩
      · rcases ih (c.page_content :: seen) d hd with hseen | ⟨x, hx, hxeq⟩
        · rcases List.mem_cons.mp hseen with heq | hs
          · exact Or.inr ⟨c, List.mem_cons_self _ _, heq.symm⟩
          · exact Or.inl hs
        · exact Or.inr ⟨x, List.mem_cons_of_mem _ hx, hxeq⟩

lemma dedupLoop_find_first (l : List RDoc) :
    ∀ seen, ∀ x ∈ dedupLoop l seen,
      l.find? (fun d => d.page_content == x.page_content) = some x := by
  induction l with
  | nil => intro seen x hx; simp [dedupLoop] at hx
  | cons c cs ih =>
    intro seen x hx
    by_cases h : c.page_content ∈ seen
    · rw [dedupLoop, if_pos h] at hx
      have hxs := dedupLoop_not_seen cs seen x hx
      have hne : (c.page_content == x.page_content) = false := by
        refine beq_eq_false_iff_ne.mpr (fun heq => hxs (heq ▸ h))
      rw [List.find?_cons_of_neg _ (by simp [hne]), ih seen x hx]
    · rw [dedupLoop, if_neg h] at hx
      rcases List.mem_cons.mp hx with hx | hx
      · subst hx; exact List.find?_cons_of_pos _ (by simp)
      · have hxs := dedupLoop_not_seen cs (c.page_content :: seen) x hx
        have hne : (c.page_content == x.page_content) = false := by
          refine beq_eq_false_iff_ne.mpr
            (fun heq => hxs (heq ▸ List.mem_cons_self _ _))
        rw [List.find?_cons_of_neg _ (by simp [hne]),
          ih (c.page_content :: seen) x hx]

/-- C5: in the merged similarity+diversity result list, exactly one
result per distinct text survives deduplication — the first-seen
occurrence — and the deduplicated list preserves the input order: the
surviving texts are pairwise distinct, the survivors form a subsequence
of the merge (first-seen order), every text of the merge is represented,
and each survivor is the first element of the merge carrying its text. -/
theorem search_dedup_first_seen (direct_results mmr_results : List RDoc) :
    ((dedupLoop (direct_results ++ mmr_results) []).map
      (fun d => d.page_content)).Nodup ∧
    (dedupLoop (direct_results ++ mmr_results) []).Sublist
      (direct_results ++ mmr_results) ∧
    (∀ d ∈ direct_results ++ mmr_results,
      ∃ x ∈ dedupLoop (direct_results ++ mmr_results) [],
        x.page_content = d.page_content) ∧
    (∀ x ∈ dedupLoop (direct_results ++ mmr_results) [],
      (direct_results ++ mmr_results).find?
        (fun d => d.page_content == x.page_content) = some x) := by
  refine ⟨dedupLoop_texts_nodup _ [], dedupLoop_sublist _ [], ?_, ?_⟩
  · intro d hd
    rcases dedupLoop_covers (direct_results ++ mmr_results) [] d hd with h | h
    · simp at h
    · exact h
  · exact dedupLoop_find_first _ []

/-- Witness for C5 at the concrete overlap scenario: the first mmr result
repeats the text of the first similarity result, and the survivor of the
text "t1" is the first-seen occurrence. -/
theorem search_dedup_first_seen_witness :
    ((dedupLoop (exDirect ++ exMmr) []).map
      (fun d => d.page_content)).Nodup ∧
    (∃ x ∈ dedupLoop (exDirect ++ exMmr) [],
      x.page_content = (rdoc "t1").page_content) := by
  refine ⟨(search_dedup_first_seen exDirect exMmr).1, ?_⟩
  exact (search_dedup_first_seen exDirect exMmr).2.2.1 (rdoc "t1") (by decide)

/-- C6 counterexample: the `search_metadata` dict does not contain a field
named `strategies_used` — the source names the key
`search_strategies_used` — so its key set is not the one the claim
states. -/
theorem search_metadata_keys_counterexample :
    ((search exDirect exMmr).2.map Prod.fst ≠
      ["total_results_found", "unique_results_used", "strategies_used",
       "top_result_score"]) ∧
    "strategies_used" ∉ (search exDirect exMmr).2.map Prod.fst := by
  constructor
  · decide
  · decide

/-- C6 as amended: `search_metadata` contains exactly the fields
`total_results_found`, `unique_results_used`, `search_strategies_used`
and `top_result_score`, and in the k=5/k=3 scenario with 2 overlapping
texts `unique_results_used` equals 6. -/
theorem search_metadata_fields_amended :
    (∀ direct_results mmr_results : List RDoc,
      (search direct_results mmr_results).2.map Prod.fst =
        ["total_results_found", "unique_results_used",
         "search_strategies_used", "top_result_score"]) ∧
    (search exDirect exMmr).2.lookup "unique_results_used" =
      some (MetaValue.num 6) := by
  constructor
  · intro direct_results mmr_results; rfl
  · show ((search exDirect exMmr).2.lookup "unique_results_used") = _
    simp only [search, List.lookup]
    norm_num
    rw [sortByScore, List.length_mergeSort]
    decide

end Rag

/-! ## Metadata store failure semantics (C3) -/

/-- C3 counterexample: with a backend whose connection ping fails and a
not-yet-connected service, `save_document_metadata` does not propagate a
typed error to its caller — the `try/except` swallows the connection
failure and the caller receives the ordinary return value `False`. -/
theorem save_metadata_conn_failure_counterexample :
    (RedisMetadataService.save_document_metadata exBackendFail exState
      "doc1" exMetadata).1 = Except.ok false := by
  rfl

/-- C3 as amended: when the metadata-store backend connection fails,
`save_document_metadata` catches the exception internally and returns the
normal value `False` to its caller (never `True`, and never a propagated
error); the failure is only logged. -/
theorem save_metadata_conn_failure_returns_false
    (b : RedisMetadataService.RedisBackend)
    (st : RedisMetadataService.ServiceState)
    (doc_id : String) (metadata : DocumentMetadata)
    (hping : b.ping_ok = false) (hconn : st.connected = false) :
    (RedisMetadataService.save_document_metadata b st doc_id metadata).1
      = Except.ok false := by
  simp [RedisMetadataService.save_document_metadata,
    RedisMetadataService.connect, hping, hconn]

/-- Witness for the amended C3 at the concrete failing backend. -/
theorem save_metadata_conn_failure_returns_false_witness :
    (RedisMetadataService.save_document_metadata exBackendFail exState
      "doc1" exMetadata).1 = Except.ok false :=
  save_metadata_conn_failure_returns_false exBackendFail exState
    "doc1" exMetadata rfl rfl

/-! ## Context stitching flags (C7) -/

lemma enhanceAt_flags (chunks : List Document) (i : ℕ) :
    (ChunkSplitter.enhanceAt chunks i).metadata.has_previous
      = some (decide (0 < i)) ∧
    (ChunkSplitter.enhanceAt chunks i).metadata.has_next
      = some (decide (i < chunks.length - 1)) := by
  by_cases h1 : 0 < i <;> by_cases h2 : i < chunks.length - 1 <;>
    simp [ChunkSplitter.enhanceAt, h1, h2]

/-- C7: context stitching is one-to-one — `add_neighbouring_content`
returns one chunk per input chunk — and at every position `i` the
stitched metadata has `has_previous = (i > 0)` and
`has_next = (i < total_chunks - 1)`. -/
theorem add_neighbouring_content_length_flags (chunks : List Document) :
    (ChunkSplitter.add_neighbouring_content chunks).length = chunks.length ∧
    ∀ i, i < chunks.length →
      ((ChunkSplitter.add_neighbouring_content chunks).getD i
        default).metadata.has_previous = some (decide (0 < i)) ∧
      ((ChunkSplitter.add_neighbouring_content chunks).getD i
        default).metadata.has_next
        = some (decide (i < chunks.length - 1)) := by
  refine ⟨by simp [ChunkSplitter.add_neighbouring_content], ?_⟩
  intro i hi
  have hg : (ChunkSplitter.add_neighbouring_content chunks).getD i default
      = ChunkSplitter.enhanceAt chunks i := by
    simp [ChunkSplitter.add_neighbouring_content,
      List.getD_eq_getElem?_getD, List.getElem?_map, List.getElem?_range hi]
  rw [hg]
  exact enhanceAt_flags chunks i

/-- Witness for C7 at a concrete three-chunk list, middle position. -/
theorem add_neighbouring_content_length_flags_witness :
    (ChunkSplitter.add_neighbouring_content exChunks).length
      = exChunks.length ∧
    ((ChunkSplitter.add_neighbouring_content exChunks).getD 1
      default).metadata.has_previous = some true ∧
    ((ChunkSplitter.add_neighbouring_content exChunks).getD 1
      default).metadata.has_next = some true := by
  have h := add_neighbouring_content_length_flags exChunks
  refine ⟨h.1, ?_, ?_⟩
  · have h1 := (h.2 1 (by decide)).1
    simpa using h1
  · have h2 := (h.2 1 (by decide)).2
    simpa using h2

/-! ## Empty input produces zero chunks (C8) -/

lemma split_text_nil (chunkSize chunkOverlap : ℕ) :
    ChunkSplitter.split_text chunkSize chunkOverlap [] = [] := rfl

/-- C8: splitting the empty string — and more generally any input whose
cleaned text is empty — produces zero chunks (and no error: the splitter
is a total function). -/
theorem split_into_chunks_empty_cleaned (chunk_size chunk_overlap : ℕ)
    (now : String) (text : List Char) (metadata : PageMeta)
    (h : ChunkSplitter.clean_text text = []) :
    ChunkSplitter.split_into_chunks chunk_size chunk_overlap now text
      metadata = [] := by
  simp [ChunkSplitter.split_into_chunks, h, split_text_nil]

/-- Witness for C8 at the empty string itself. -/
theorem split_into_chunks_empty_cleaned_witness :
    ChunkSplitter.split_into_chunks 500 100 "t" [] ⟨"s", 1, 1⟩ = [] :=
  split_into_chunks_empty_cleaned 500 100 "t" [] ⟨"s", 1, 1⟩ rfl

/-! ## Zero-page document (C9) -/

/-- C9: for a zero-page document, `load_documents` raises the descriptive
wrapped `ValueError` and never invokes `save_document_metadata` (and
yields no progress): the metadata store is untouched on this error. -/
theorem load_documents_zero_pages (file_path : String) (file_size : ℕ)
    (file_hash now : String) (doc : List (List Char))
    (h : doc.length = 0) :
    (DocumentProcessor.load_documents file_path file_size file_hash now
      doc).saved = [] ∧
    (DocumentProcessor.load_documents file_path file_size file_hash now
      doc).error
      = some "Error processing document: Document contains no pages" ∧
    (DocumentProcessor.load_documents file_path file_size file_hash now
      doc).yields = [] := by
  simp [DocumentProcessor.load_documents, h]

/-- Witness for C9 at the concrete zero-page document. -/
theorem load_documents_zero_pages_witness :
    (DocumentProcessor.load_documents "doc.pdf" 0 "h" "ts" []).saved = [] ∧
    (DocumentProcessor.load_documents "doc.pdf" 0 "h" "ts" []).error
      = some "Error processing document: Document contains no pages" ∧
    (DocumentProcessor.load_documents "doc.pdf" 0 "h" "ts" []).yields = [] :=
  load_documents_zero_pages "doc.pdf" 0 "h" "ts" [] rfl

/-! ## The progress sequence of a single page (C10, C1) -/

lemma cntNE_cons_empty {c : Document} (h : c.page_content = [])
    (cs : List Document) : cntNE (c :: cs) = cntNE cs := by
  simp [cntNE, List.filter_cons, h]

lemma cntNE_cons_nonempty {c : Document} (h : c.page_content ≠ [])
    (cs : List Document) : cntNE (c :: cs) = cntNE cs + 1 := by
  simp [cntNE, List.filter_cons, h]

lemma pppLoop_fst (t : ℕ) (l : List Document) :
    ∀ p, (DocumentProcessor.pppLoop t l p).1 =
      (List.range' (p + 1) (cntNE l)).map
        (fun k : ℕ => ((k : ℚ) / (t : ℚ)) * 100) := by
  induction l with
  | nil => intro p; simp [DocumentProcessor.pppLoop, cntNE]
  | cons c cs ih =>
    intro p
    by_cases h : c.page_content = []
    · rw [DocumentProcessor.pppLoop, if_pos h, ih p, cntNE_cons_empty h]
    · rw [DocumentProcessor.pppLoop, if_neg h]
      dsimp only
      rw [ih (p + 1), cntNE_cons_nonempty h, List.range'_succ]
      simp

lemma pppLoop_processed (t : ℕ) (l : List Document) :
    ∀ p, (DocumentProcessor.pppLoop t l p).2.2 = p + cntNE l := by
  induction l with
  | nil => intro p; simp [DocumentProcessor.pppLoop, cntNE]
  | cons c cs ih =>
    intro p
    by_cases h : c.page_content = []
    · rw [DocumentProcessor.pppLoop, if_pos h, ih p, cntNE_cons_empty h]
    · rw [DocumentProcessor.pppLoop, if_neg h]
      dsimp only
      rw [ih (p + 1), cntNE_cons_nonempty h]
      omega

lemma process_page_parallel_fst (now : String) (text : List Char)
    (metadata : PageMeta) (chunk_size chunk_overlap : ℕ) :
    (DocumentProcessor.process_page_parallel now text metadata chunk_size
      chunk_overlap).1 =
    pageYieldsShape
      (cntNE (ChunkSplitter.add_neighbouring_content
        (ChunkSplitter.split_into_chunks chunk_size chunk_overlap now text
          metadata)))
      (ChunkSplitter.add_neighbouring_content
        (ChunkSplitter.split_into_chunks chunk_size chunk_overlap now text
          metadata)).length := by
  simp only [DocumentProcessor.process_page_parallel, pageYieldsShape]
  rw [pppLoop_fst, pppLoop_processed]
  simp

lemma pageYieldsShape_zero (t : ℕ) : pageYieldsShape 0 t = [] := by
  simp [pageYieldsShape]

lemma pageYieldsShape_eq_nil_iff (m t : ℕ) :
    pageYieldsShape m t = [] ↔ m = 0 := by
  constructor
  · intro h
    by_contra hm
    have hpos : 0 < m := Nat.pos_of_ne_zero hm
    rw [pageYieldsShape, if_pos hpos] at h
    simp at h
  · intro h; rw [h]; exact pageYieldsShape_zero t

lemma pageYieldsShape_mem (m t : ℕ) (hmt : m ≤ t) :
    ∀ y ∈ pageYieldsShape m t, 0 < y ∧ y ≤ 100 := by
  intro y hy
  rcases List.mem_append.mp hy with hy | hy
  · rcases List.mem_map.mp hy with ⟨k, hk, rfl⟩
    have hk' := List.mem_range'_1.mp hk
    have hkt : k ≤ t := by omega
    have ht : 0 < t := by omega
    have htq : (0 : ℚ) < (t : ℚ) := by exact_mod_cast ht
    have hkq : (0 : ℚ) < (k : ℚ) := by exact_mod_cast hk'.1
    constructor
    · exact mul_pos (div_pos hkq htq) (by norm_num)
    · have hktq : (k : ℚ) ≤ (t : ℚ) := by exact_mod_cast hkt
      have h1 : (k : ℚ) / (t : ℚ) ≤ 1 := (div_le_one htq).mpr hktq
      calc ((k : ℚ) / (t : ℚ)) * 100 ≤ 1 * 100 :=
            mul_le_mul_of_nonneg_right h1 (by norm_num)
        _ = 100 := by norm_num
  · by_cases hm : 0 < m
    · rw [if_pos hm] at hy
      rcases List.mem_singleton.mp hy with rfl
      exact ⟨by norm_num, le_refl _⟩
    · rw [if_neg hm] at hy
      simp at hy

lemma pageYieldsShape_sorted (m t : ℕ) (hmt : m ≤ t) :
    List.Sorted (· ≤ ·) (pageYieldsShape m t) := by
  rw [pageYieldsShape]
  refine List.pairwise_append.mpr ⟨?_, ?_, ?_⟩
  · refine List.pairwise_map.mpr ?_
    refine (List.pairwise_lt_range' 1 m).imp (fun {a b} hab => ?_)
    by_cases ht : (t : ℚ) = 0
    · simp [ht]
    · have htq : (0 : ℚ) < (t : ℚ) := by
        have h0 : (0 : ℚ) ≤ (t : ℚ) := by positivity
        exact lt_of_le_of_ne h0 (Ne.symm ht)
      have hq : (a : ℚ) ≤ (b : ℚ) := by exact_mod_cast le_of_lt hab
      exact mul_le_mul_of_nonneg_right
        ((div_le_div_iff_of_pos_right htq).mpr hq) (by norm_num)
  · by_cases hm : 0 < m <;> simp [hm]
  · intro x hx b hb
    by_cases hm : 0 < m
    · rw [if_pos hm] at hb
      rcases List.mem_singleton.mp hb with rfl
      exact (pageYieldsShape_mem m t hmt x
        (by rw [pageYieldsShape]; exact List.mem_append_left _ hx)).2
    · rw [if_neg hm] at hb
      simp at hb

lemma pageYieldsShape_last (m t : ℕ) (hm : 0 < m) :
    (pageYieldsShape m t).getLast? = some 100 := by
  rw [pageYieldsShape, if_pos hm, List.getLast?_append]
  simp

lemma process_page_parallel_facts (now : String) (text : List Char)
    (metadata : PageMeta) (chunk_size chunk_overlap : ℕ) :
    List.Sorted (· ≤ ·)
      (DocumentProcessor.process_page_parallel now text metadata chunk_size
        chunk_overlap).1 ∧
    (∀ y ∈ (DocumentProcessor.process_page_parallel now text metadata
        chunk_size chunk_overlap).1, 0 < y ∧ y ≤ 100) ∧
    ((DocumentProcessor.process_page_parallel now text metadata chunk_size
        chunk_overlap).1 = [] ∨
      (DocumentProcessor.process_page_parallel now text metadata chunk_size
        chunk_overlap).1.getLast? = some 100) := by
  simp only [process_page_parallel_fst]
  have hmt : cntNE (ChunkSplitter.add_neighbouring_content
        (ChunkSplitter.split_into_chunks chunk_size chunk_overlap now text
          metadata)) ≤
      (ChunkSplitter.add_neighbouring_content
        (ChunkSplitter.split_into_chunks chunk_size chunk_overlap now text
          metadata)).length := List.length_filter_le _ _
  refine ⟨pageYieldsShape_sorted _ _ hmt, pageYieldsShape_mem _ _ hmt, ?_⟩
  rcases Nat.eq_zero_or_pos (cntNE (ChunkSplitter.add_neighbouring_content
      (ChunkSplitter.split_into_chunks chunk_size chunk_overlap now text
        metadata))) with hm | hm
  · exact Or.inl (by rw [hm, pageYieldsShape_zero])
  · exact Or.inr (pageYieldsShape_last _ _ hm)

/-- C10: `process_page_parallel` is total for every chunk count.  When
every stitched chunk is empty (in particular when there are no chunks at
all), the generator yields nothing; every yielded value is either the
in-loop value `(k / total_chunks) * 100` for some processed count
`1 ≤ k ≤ total_chunks` — so the division is only ever taken with
`total_chunks ≥ 1` — or the trailing `100.0`, and something is yielded
exactly when at least one stitched chunk is non-empty. -/
theorem process_page_parallel_total_zero_chunks (now : String)
    (text : List Char) (metadata : PageMeta) (chunk_size chunk_overlap : ℕ) :
    ((∀ c ∈ ChunkSplitter.add_neighbouring_content
        (ChunkSplitter.split_into_chunks chunk_size chunk_overlap now text
          metadata), c.page_content = []) →
      (DocumentProcessor.process_page_parallel now text metadata chunk_size
        chunk_overlap).1 = []) ∧
    (∀ y ∈ (DocumentProcessor.process_page_parallel now text metadata
        chunk_size chunk_overlap).1,
      ∃ k, 1 ≤ k ∧
        k ≤ (ChunkSplitter.add_neighbouring_content
          (ChunkSplitter.split_into_chunks chunk_size chunk_overlap now text
            metadata)).length ∧
        (y = ((k : ℚ) / (((ChunkSplitter.add_neighbouring_content
            (ChunkSplitter.split_into_chunks chunk_size chunk_overlap now
              text metadata)).length : ℕ) : ℚ)) * 100 ∨ y = 100)) ∧
    ((DocumentProcessor.process_page_parallel now text metadata chunk_size
        chunk_overlap).1 ≠ [] ↔
      ∃ c ∈ ChunkSplitter.add_neighbouring_content
        (ChunkSplitter.split_into_chunks chunk_size chunk_overlap now text
          metadata), c.page_content ≠ []) := by
  simp only [process_page_parallel_fst]
  have hmt : cntNE (ChunkSplitter.add_neighbouring_content
        (ChunkSplitter.split_into_chunks chunk_size chunk_overlap now text
          metadata)) ≤
      (ChunkSplitter.add_neighbouring_content
        (ChunkSplitter.split_into_chunks chunk_size chunk_overlap now text
          metadata)).length := List.length_filter_le _ _
  have hcnt : ∀ l : List Document,
      (0 < cntNE l ↔ ∃ c ∈ l, c.page_content ≠ []) := by
    intro l
    rw [cntNE, List.length_pos_iff_exists_mem]
    constructor
    · rintro ⟨c, hc⟩
      have hc' := List.mem_filter.mp hc
      exact ⟨c, hc'.1, by simpa using hc'.2⟩
    · rintro ⟨c, hc, hne⟩
      exact ⟨c, List.mem_filter.mpr ⟨hc, by simpa using hne⟩⟩
  refine ⟨?_, ?_, ?_⟩
  · intro hall
    have hz : cntNE (ChunkSplitter.add_neighbouring_content
        (ChunkSplitter.split_into_chunks chunk_size chunk_overlap now text
          metadata)) = 0 := by
      rw [cntNE, List.length_eq_zero]
      rw [List.filter_eq_nil_iff]
      intro c hc
      simp [hall c hc]
    rw [hz, pageYieldsShape_zero]
  · intro y hy
    rcases List.mem_append.mp hy with hy | hy
    · rcases List.mem_map.mp hy with ⟨k, hk, rfl⟩
      have hk' := List.mem_range'_1.mp hk
      exact ⟨k, hk'.1, by omega, Or.inl rfl⟩
    · by_cases hm : 0 < cntNE (ChunkSplitter.add_neighbouring_content
          (ChunkSplitter.split_into_chunks chunk_size chunk_overlap now text
            metadata))
      · rw [if_pos hm] at hy
        rcases List.mem_singleton.mp hy with rfl
        exact ⟨1, le_refl 1, by omega, Or.inr rfl⟩
      · rw [if_neg hm] at hy
        simp at hy
  · rw [← hcnt]
    constructor
    · intro hne
      by_contra h0
      have hz : cntNE (ChunkSplitter.add_neighbouring_content
          (ChunkSplitter.split_into_chunks chunk_size chunk_overlap now text
            metadata)) = 0 := by omega
      exact hne (by rw [hz, pageYieldsShape_zero])
    · intro hm hnil
      rw [pageYieldsShape_eq_nil_iff] at hnil
      omega

/-- Witness for C10: on the empty page text there are no chunks, every
stitched chunk is (vacuously) empty, and the generator yields nothing. -/
theorem process_page_parallel_total_zero_chunks_witness :
    (DocumentProcessor.process_page_parallel "ts" [] ⟨"s", 1, 1⟩
      500 100).1 = [] :=
  (process_page_parallel_total_zero_chunks "ts" [] ⟨"s", 1, 1⟩ 500 100).1
    (by decide)

/-! ## The overall progress sequence of `load_documents` (C1) -/

lemma pageBlock_facts (T : ℕ) (hT : 0 < T) (i : ℕ) (pys : List ℚ)
    (hsorted : List.Sorted (· ≤ ·) pys)
    (hmem : ∀ y ∈ pys, 0 < y ∧ y ≤ 100)
    (hlast : pys = [] ∨ pys.getLast? = some 100) :
    List.Sorted (· ≤ ·) (pageBlock T i pys) ∧
    (∀ y ∈ pageBlock T i pys,
      ((i : ℚ) * 100) / (T : ℚ) < y ∧
        y ≤ (((i : ℚ) + 1) * 100) / (T : ℚ)) ∧
    (pageBlock T i pys).getLast? = some ((((i : ℚ) + 1) * 100) / (T : ℚ)) := by
  have htq : (0 : ℚ) < (T : ℚ) := by exact_mod_cast hT
  rcases hlast with hnil | h100
  · subst hnil
    have hlt : ((0 : ℚ)) < 100 := by norm_num
    rw [pageBlock]
    simp only [List.map_nil, List.getLastD_nil, if_pos hlt, List.nil_append]
    refine ⟨List.sorted_singleton _, ?_, rfl⟩
    intro y hy
    rcases List.mem_singleton.mp hy with rfl
    refine ⟨(div_lt_div_iff_of_pos_right htq).mpr (by linarith), le_refl _⟩
  · have hgl : pys.getLastD 0 = 100 := by
      rw [List.getLastD_eq_getLast?, h100]
      rfl
    have hne : ¬ (pys.getLastD 0 < 100) := by
      rw [hgl]
      exact lt_irrefl _
    have hkey : ((i : ℚ) * 100 + 100) / (T : ℚ)
        = (((i : ℚ) + 1) * 100) / (T : ℚ) := by
      congr 1
      ring
    rw [pageBlock, if_neg hne, List.append_nil]
    refine ⟨?_, ?_, ?_⟩
    · refine List.pairwise_map.mpr (hsorted.imp (fun hab => ?_))
      exact (div_le_div_iff_of_pos_right htq).mpr (by linarith)
    · intro y hy
      rcases List.mem_map.mp hy with ⟨p, hp, rfl⟩
      have hpb := hmem p hp
      constructor
      · exact (div_lt_div_iff_of_pos_right htq).mpr (by linarith [hpb.1])
      · rw [← hkey]
        exact (div_le_div_iff_of_pos_right htq).mpr (by linarith [hpb.2])
    · rw [List.getLast?_map, h100]
      simp only [Option.map_some']
      rw [hkey]

lemma pagesLoop_cons (T : ℕ) (now src : String) (text : List Char)
    (rest : List (List Char)) (i : ℕ) :
    (DocumentProcessor.pagesLoop T now src (text :: rest) i).1 =
      pageBlock T i (DocumentProcessor.process_page_parallel now text
        ⟨src, i + 1, T⟩ 500 100).1 ++
      (DocumentProcessor.pagesLoop T now src rest (i + 1)).1 := by
  simp [DocumentProcessor.pagesLoop, pageBlock, List.append_assoc]

lemma pagesLoop_facts (T : ℕ) (hT : 0 < T) (now src : String) :
    ∀ (pages : List (List Char)) (i : ℕ), i + pages.length = T →
      List.Sorted (· ≤ ·) (DocumentProcessor.pagesLoop T now src pages i).1 ∧
      (∀ y ∈ (DocumentProcessor.pagesLoop T now src pages i).1,
        ((i : ℚ) * 100) / (T : ℚ) < y ∧ y ≤ 100) ∧
      (pages ≠ [] →
        (DocumentProcessor.pagesLoop T now src pages i).1.getLast?
          = some 100) := by
  intro pages
  induction pages with
  | nil =>
    intro i hi
    refine ⟨by simp [DocumentProcessor.pagesLoop],
      by simp [DocumentProcessor.pagesLoop], by simp⟩
  | cons text rest ih =>
    intro i hi
    have hiT : i < T := by
      simp only [List.length_cons] at hi
      omega
    have hi1T : (i : ℚ) + 1 ≤ (T : ℚ) := by
      have : i + 1 ≤ T := by
        simp only [List.length_cons] at hi
        omega
      exact_mod_cast this
    have htq : (0 : ℚ) < (T : ℚ) := by exact_mod_cast hT
    have hppp := process_page_parallel_facts now text ⟨src, i + 1, T⟩ 500 100
    have hblock := pageBlock_facts T hT i _ hppp.1 hppp.2.1 hppp.2.2
    have hrest := ih (i + 1) (by
      simp only [List.length_cons] at hi
      omega)
    have hup : (((i : ℚ) + 1) * 100) / (T : ℚ) ≤ 100 := by
      rw [div_le_iff₀ htq]
      nlinarith
    have hcast : (((i + 1 : ℕ) : ℚ)) = (i : ℚ) + 1 := by push_cast; ring
    rw [pagesLoop_cons]
    refine ⟨?_, ?_, ?_⟩
    · refine List.pairwise_append.mpr ⟨hblock.1, hrest.1, ?_⟩
      intro x hx b hb
      have hxu := (hblock.2.1 x hx).2
      have hbl := (hrest.2.1 b hb).1
      rw [hcast] at hbl
      linarith
    · intro y hy
      rcases List.mem_append.mp hy with hy | hy
      · have h1 := hblock.2.1 y hy
        refine ⟨h1.1, le_trans h1.2 hup⟩
      · have h1 := hrest.2.1 y hy
        rw [hcast] at h1
        refine ⟨?_, h1.2⟩
        have hlow : ((i : ℚ) * 100) / (T : ℚ)
            < (((i : ℚ) + 1) * 100) / (T : ℚ) :=
          (div_lt_div_iff_of_pos_right htq).mpr (by linarith)
        linarith
    · intro _
      cases rest with
      | nil =>
        have hiT1 : i + 1 = T := by
          simp only [List.length_cons, List.length_nil] at hi
          omega
        have : (DocumentProcessor.pagesLoop T now src
            ([] : List (List Char)) (i + 1)).1 = [] := rfl
        rw [this, List.append_nil, hblock.2.2]
        have hTq : ((i : ℚ) + 1) = (T : ℚ) := by
          rw [← hcast]
          exact_mod_cast congrArg (Nat.cast : ℕ → ℚ) hiT1
        rw [hTq]
        congr 1
        rw [mul_comm, mul_div_assoc, div_self (ne_of_gt htq), mul_one]
      | cons r rs =>
        rw [List.getLast?_append]
        rw [hrest.2.2 (by simp)]
        rfl

/-- C1: for every successfully ingested document with at least one page
(including pages that produce zero chunks, covered by the page-completion
yield), the overall progress sequence yielded by `load_documents` is
non-decreasing, every value lies in `[0, 100]`, the final value is
exactly `100.0`, and no error is raised. -/
theorem load_documents_progress_monotone (file_path : String)
    (file_size : ℕ) (file_hash now : String) (doc : List (List Char))
    (hP : 1 ≤ doc.length) :
    List.Sorted (· ≤ ·)
      (DocumentProcessor.load_documents file_path file_size file_hash now
        doc).yields ∧
    (∀ y ∈ (DocumentProcessor.load_documents file_path file_size file_hash
        now doc).yields, 0 ≤ y ∧ y ≤ 100) ∧
    (DocumentProcessor.load_documents file_path file_size file_hash now
      doc).yields.getLast? = some 100 ∧
    (DocumentProcessor.load_documents file_path file_size file_hash now
      doc).error = none := by
  have hT : 0 < doc.length := hP
  have h := pagesLoop_facts doc.length hT now file_path doc 0 (by omega)
  have hyields : (DocumentProcessor.load_documents file_path file_size
      file_hash now doc).yields
      = (DocumentProcessor.pagesLoop doc.length now file_path doc 0).1 := by
    rw [DocumentProcessor.load_documents, if_neg (by omega)]
  have herror : (DocumentProcessor.load_documents file_path file_size
      file_hash now doc).error = none := by
    rw [DocumentProcessor.load_documents, if_neg (by omega)]
  refine ⟨?_, ?_, ?_, herror⟩
  · rw [hyields]
    exact h.1
  · rw [hyields]
    intro y hy
    have h1 := h.2.1 y hy
    have h0 : ((0 : ℕ) : ℚ) * 100 / ((doc.length : ℕ) : ℚ) = 0 := by
      simp
    rw [h0] at h1
    exact ⟨le_of_lt h1.1, h1.2⟩
  · rw [hyields]
    exact h.2.2 (by
      intro hnil
      rw [hnil] at hP
      simp at hP)

/-- Witness for C1: a two-page document whose first page has one chunk and
whose second page is empty (zero chunks, exercising the page-completion
yield on the last page). -/
theorem load_documents_progress_monotone_witness :
    List.Sorted (· ≤ ·)
      (DocumentProcessor.load_documents "f" 1 "h" "ts"
        [['x'], []]).yields ∧
    (∀ y ∈ (DocumentProcessor.load_documents "f" 1 "h" "ts"
        [['x'], []]).yields, 0 ≤ y ∧ y ≤ 100) ∧
    (DocumentProcessor.load_documents "f" 1 "h" "ts"
      [['x'], []]).yields.getLast? = some 100 ∧
    (DocumentProcessor.load_documents "f" 1 "h" "ts"
      [['x'], []]).error = none :=
  load_documents_progress_monotone "f" 1 "h" "ts" [['x'], []] (by decide)

/-! ## The chunk-count bug of `load_documents` (C2) -/

set_option maxRecDepth 200000 in
set_option maxHeartbeats 1000000 in
/-- C2: on the scenario document (page 1 splits into 3 chunks, page 2
into 2 chunks, none empty after stitching) exactly 5 chunks are written
to the vector store and `page_count = 2`, but the persisted
`chunk_count` is 7, not 5: `load_documents` increments `chunk_count`
once per progress value yielded by `process_page_parallel` — including
each page's synthetic trailing `100.0` yield — rather than once per
indexed chunk. -/
theorem load_documents_chunk_count_counts_yields :
    (DocumentProcessor.load_documents "doc.pdf" 1204 "hash" "ts"
      exDoc2).saved.map (fun p => (p.2.chunk_count, p.2.page_count))
      = [(7, 2)] ∧
    (DocumentProcessor.load_documents "doc.pdf" 1204 "hash" "ts"
      exDoc2).writes.length = 5 := by
  constructor
  · decide
  · decide

end OpenSearchRag
